import Mathlib

/-!
Verification of the PLC address-mapping engine of the JSON-configurator
repository.

The TypeScript sources are embedded shallowly: JavaScript strings are
modelled as `List Char` (`JStr`), and every string primitive the code uses
(`split('.')`, `startsWith`, `endsWith`, `padStart(2,'0')`, `parseInt`,
`toUpperCase`, truthiness of strings) is given a small structural Lean
definition mirroring its JavaScript behaviour on the inputs that occur.

Embedded functions (from `client/src/lib/plc-parser.ts`):
`normalizeEAddress`, `normalizeBooleanAddress`, `memoryAreaPrefixOf`
(source name: getMemoryAreaPrefix), `generateOpcuaName`,
`isSupportedMemoryArea`, `parseCSVData`.

From `client/src/components/address-mappings-table.tsx`:
`isBoolChannel`, `isModifiedChannel`, `extractUsedBits`, `toggleBit`,
`debouncedUpdateMapping`, `getValidPlcNo`.

From the config-builder component: `dedupeByOpcuaName`.
-/

/-- JavaScript strings, modelled as lists of characters. -/
abbrev JStr := List Char

/-- Converts a Lean string literal to the `JStr` model. -/
def js (s : String) : JStr := s.data

/-- JavaScript `String.prototype.startsWith`. -/
def jsStartsWith : JStr → JStr → Bool
  | _, [] => true
  | [], _ :: _ => false
  | c :: s, p :: ps => c == p && jsStartsWith s ps

/-- JavaScript `String.prototype.endsWith`. -/
def jsEndsWith (s suf : JStr) : Bool :=
  jsStartsWith s.reverse suf.reverse

/-- JavaScript `String.prototype.includes` for a single character. -/
def jsIncludes (s : JStr) (c : Char) : Bool :=
  s.any (· == c)

/-- JavaScript `String.prototype.split('.')`. -/
def splitDot : JStr → List JStr
  | [] => [[]]
  | c :: rest =>
    if c = '.' then [] :: splitDot rest
    else
      match splitDot rest with
      | [] => [[c]]
      | h :: t => (c :: h) :: t

/-- JavaScript `String.prototype.padStart(2, '0')`. -/
def padStart2 (s : JStr) : JStr :=
  if 2 ≤ s.length then s else List.replicate (2 - s.length) '0' ++ s

/-- JavaScript `String.prototype.toUpperCase` (ASCII fragment). -/
def jsToUpper (s : JStr) : JStr := s.map Char.toUpper

/-- True when the string matches the regular expression `^\d`. -/
def startsWithDigit : JStr → Bool
  | [] => false
  | c :: _ => c.isDigit

/-- JavaScript `Number.prototype.toString` for naturals. -/
def natToStr (n : Nat) : JStr := Nat.toDigits 10 n

/-- JavaScript `Number.prototype.toString` for integers. -/
def intToStr (i : Int) : JStr :=
  if i < 0 then '-' :: natToStr i.natAbs else natToStr i.natAbs

/-- Value of a maximal decimal-digit run, `none` when there is none. -/
def decDigitsVal (s : JStr) : Option Nat :=
  let ds := s.takeWhile Char.isDigit
  if ds = [] then none
  else some (ds.foldl (fun acc c => acc * 10 + (c.toNat - '0'.toNat)) 0)

/-- Numeric value of one hexadecimal digit. -/
def hexDigitVal (c : Char) : Nat :=
  if c.isDigit then c.toNat - '0'.toNat
  else if 'a' ≤ c ∧ c ≤ 'f' then c.toNat - 'a'.toNat + 10
  else c.toNat - 'A'.toNat + 10

/-- Value of a maximal hexadecimal-digit run, `none` when there is none. -/
def hexDigitsVal (s : JStr) : Option Nat :=
  let ds := s.takeWhile (fun c => c.isDigit ∨ ('a' ≤ c ∧ c ≤ 'f') ∨ ('A' ≤ c ∧ c ≤ 'F'))
  if ds = [] then none
  else some (ds.foldl (fun acc c => acc * 16 + hexDigitVal c) 0)

/-- JavaScript `parseInt` without a digit sequence after the sign: `NaN`
(modelled as `none`); a `0x` prelude selects radix 16. -/
def jsParseIntUnsigned (s : JStr) : Option Nat :=
  match s with
  | '0' :: 'x' :: rest => hexDigitsVal rest
  | '0' :: 'X' :: rest => hexDigitsVal rest
  | _ => decDigitsVal s

/-- JavaScript `parseInt` on a string argument (`NaN` is `none`). -/
def jsParseInt (s : JStr) : Option Int :=
  match s.dropWhile Char.isWhitespace with
  | '-' :: rest => (jsParseIntUnsigned rest).map (fun n => -(n : Int))
  | '+' :: rest => (jsParseIntUnsigned rest).map (fun n => (n : Int))
  | t => (jsParseIntUnsigned t).map (fun n => (n : Int))

/-! ## plc-parser.ts -/

/-- `normalizeEAddress` from plc-parser.ts: pad the part after a leading
`E` with zeros when its length is between 1 and 4. -/
def normalizeEAddress (address : JStr) : JStr :=
  if jsStartsWith address (js "E") then
    let numericPart := address.drop 1
    if numericPart.length = 4 then js "E0" ++ numericPart
    else if numericPart.length = 3 then js "E00" ++ numericPart
    else if numericPart.length = 2 then js "E000" ++ numericPart
    else if numericPart.length = 1 then js "E0000" ++ numericPart
    else address
  else address

/-- `normalizeBooleanAddress` from plc-parser.ts: ensure a two-digit bit
position after the dot, appending `.00` when there is no dot. -/
def normalizeBooleanAddress (address : JStr) : JStr :=
  if jsIncludes address '.' then
    let baseAddress := (splitDot address).getD 0 []
    let bitPos := (splitDot address).getD 1 []
    baseAddress ++ js "." ++ padStart2 bitPos
  else address ++ js ".00"

/-- `getMemoryAreaPrefix` from plc-parser.ts: `"A"` for empty or numeric
addresses, otherwise the upper-cased first character. -/
def memoryAreaPrefixOf (address : JStr) : JStr :=
  match address with
  | [] => js "A"
  | c :: _ => if c.isDigit then js "A" else [c.toUpper]

/-- The `DATA_TYPE_DICTIONARY` lookup with JavaScript `|| 1` default. -/
def dataTypeSuffixNum (dt : JStr) : Nat :=
  if dt = js "UDINT" then 2
  else if dt = js "WORD" then 1
  else if dt = js "DWORD" then 3
  else if dt = js "INT" then 1
  else if dt = js "REAL" then 4
  else if dt = js "LREAL" then 8
  else 1

/-- `generateOpcuaName` from plc-parser.ts. -/
def generateOpcuaName (address dataType : JStr) (bitPosition : Option JStr)
    (isBooleanChannel : Bool) (plcNumber : Nat) : JStr :=
  let area := memoryAreaPrefixOf address
  let regAddress := if startsWithDigit address then address else address.drop 1
  if dataType = js "BOOL" then
    if isBooleanChannel then
      js "P" ++ natToStr plcNumber ++ js "_" ++ area ++ js "_" ++ regAddress ++ js "_BC"
    else
      let bitNum := match bitPosition with
        | some b => if b = [] then js "00" else b
        | none => js "00"
      js "P" ++ natToStr plcNumber ++ js "_" ++ area ++ js "_" ++ regAddress ++ js "_B" ++ bitNum
  else if dataType = js "CHANNEL" ∨ dataType = js "channel" then
    js "P" ++ natToStr plcNumber ++ js "_" ++ area ++ js "_" ++ regAddress ++ js "_C"
  else
    js "P" ++ natToStr plcNumber ++ js "_" ++ area ++ js "_" ++ regAddress
      ++ js "_W" ++ natToStr (dataTypeSuffixNum (jsToUpper dataType))

/-- `isSupportedMemoryArea` from plc-parser.ts. -/
def isSupportedMemoryArea (address : JStr) : Bool :=
  if address = [] then false
  else if 3 ≤ address.length ∧ ¬((address.getD 1 ' ').isDigit ∨ address.getD 1 ' ' = '.') then
    false
  else if startsWithDigit address then true
  else ['D', 'W', 'H', 'A', 'E', 'T', 'C'].any (fun p => jsStartsWith address [p])

/-- One address mapping, after `shared/schema.ts` (`addressMappingSchema`):
the fields the engine reads and writes.  `bit_list` and `description` are
optional in the schema; absent values are modelled as `none` / `[]`. -/
structure AddressMapping where
  plc_reg_add : JStr
  data_type : JStr
  opcua_reg_add : JStr
  bit_list : Option (List Int) := none
  description : JStr := []
deriving DecidableEq, Repr

/-- One entry of the skipped-address report of `parseCSVData`. -/
structure SkippedAddr where
  address : JStr
  data_type : JStr
  description : JStr
  reason : JStr
deriving DecidableEq, Repr

/-- The `stats` record of a `ParseResult`. -/
structure ParseStats where
  totalRecords : Nat
  validRecords : Nat
  skippedRecords : Nat
  booleanChannels : Nat
deriving DecidableEq, Repr

/-- The result record of `parseCSVData`. -/
structure ParseResult where
  addressMappings : List AddressMapping
  stats : ParseStats
  skippedAddresses : List SkippedAddr
  modifiedChannelAddresses : List JStr
deriving DecidableEq, Repr

/-- One bucket entry of the `booleanGroups` map inside `parseCSVData`. -/
structure BitEntry where
  originalAddress : JStr
  normalizedAddress : JStr
  bitPosition : JStr
  description : JStr
  value : JStr
deriving DecidableEq, Repr

/-- The `booleanGroups` JavaScript `Map`, as an insertion-ordered
association list. -/
abbrev Groups := List (JStr × List BitEntry)

/-- `booleanGroups.get(base).push(entry)` with creation of a missing key:
a JavaScript `Map` keeps keys in insertion order and we append pushed
entries at the end of the bucket. -/
def addToGroups : Groups → JStr → BitEntry → Groups
  | [], b, e => [(b, [e])]
  | (k, es) :: rest, b, e =>
    if k = b then (k, es ++ [e]) :: rest else (k, es) :: addToGroups rest b e

/-- Mutable state of the row loop in `parseCSVData`. -/
structure LoopState where
  groups : Groups
  otherMappings : List AddressMapping
  skippedAddresses : List SkippedAddr
deriving Repr

/-- JavaScript `row[4] || '0'`: missing and empty cells become `"0"`. -/
def valueOrZero (v : JStr) : JStr := if v = [] then js "0" else v

/-- The body of `for (const row of csvData)` in `parseCSVData`. -/
def processRow (plcNumber : Nat) (st : LoopState) (row : List JStr) : LoopState :=
  if row.length < 4 then st
  else
    let dType := row.getD 1 []
    let addr := row.getD 2 []
    let desc := row.getD 3 []
    if isSupportedMemoryArea addr then
      let normalizedAddress := normalizeEAddress addr
      if dType = js "BOOL" then
        let nb := normalizeBooleanAddress normalizedAddress
        let baseAddress := (splitDot nb).getD 0 []
        let bitPosition := (splitDot nb).getD 1 []
        let entry : BitEntry := ⟨addr, nb, bitPosition, desc, valueOrZero (row.getD 4 [])⟩
        { st with groups := addToGroups st.groups baseAddress entry }
      else if dType = js "CHANNEL" then
        { st with otherMappings := st.otherMappings ++
            [{ plc_reg_add := normalizedAddress, data_type := js "CHANNEL",
               opcua_reg_add := generateOpcuaName normalizedAddress (js "CHANNEL") none false plcNumber }] }
      else
        { st with otherMappings := st.otherMappings ++
            [{ plc_reg_add := normalizedAddress, data_type := dType,
               opcua_reg_add := generateOpcuaName normalizedAddress dType none false plcNumber }] }
    else
      { st with skippedAddresses := st.skippedAddresses ++
          [⟨addr, dType, desc, js "Unsupported memory area"⟩] }

/-- The mappings, merged original addresses and channel count emitted for
one `booleanGroups` bucket.  A bucket is only ever created together with
its first entry, so the empty case is unreachable. -/
def groupEmit (plcNumber : Nat) (baseAddress : JStr) (bits : List BitEntry) :
    List AddressMapping × List JStr × Nat :=
  if 1 < bits.length then
    ([{ plc_reg_add := baseAddress, data_type := js "BOOL",
        opcua_reg_add := generateOpcuaName baseAddress (js "BOOL") none true plcNumber }],
     bits.map (·.originalAddress), 1)
  else
    match bits with
    | bit :: _ =>
      ([{ plc_reg_add := bit.normalizedAddress, data_type := js "BOOL",
          opcua_reg_add := generateOpcuaName ((splitDot bit.normalizedAddress).getD 0 [])
            (js "BOOL") (some bit.bitPosition) false plcNumber }],
       [], 0)
    | [] => ([], [], 0)

/-- The loop over `booleanGroups` after the row loop of `parseCSVData`. -/
def processGroups (plcNumber : Nat) : Groups → List AddressMapping × List JStr × Nat
  | [] => ([], [], 0)
  | (b, bits) :: rest =>
    let head := groupEmit plcNumber b bits
    let tail := processGroups plcNumber rest
    (head.1 ++ tail.1, head.2.1 ++ tail.2.1, head.2.2 + tail.2.2)

/-- `parseCSVData` from plc-parser.ts. -/
def parseCSVData (csvData : List (List JStr)) (plcNumber : Nat := 1) : ParseResult :=
  let st := csvData.foldl (processRow plcNumber) ⟨[], [], []⟩
  let grouped := processGroups plcNumber st.groups
  let addressMappings := grouped.1 ++ st.otherMappings
  { addressMappings := addressMappings,
    stats := ⟨csvData.length, addressMappings.length,
              st.skippedAddresses.length, grouped.2.2⟩,
    skippedAddresses := st.skippedAddresses,
    modifiedChannelAddresses := grouped.2.1 }

/-! ## address-mappings-table.tsx -/

/-- `isBoolChannel` from address-mappings-table.tsx. -/
def isBoolChannel (m : AddressMapping) : Bool :=
  (m.data_type == js "BOOL" || m.data_type == js "CHANNEL")
    && jsEndsWith m.opcua_reg_add (js "_BC")

/-- `isModifiedChannel` from address-mappings-table.tsx. -/
def isModifiedChannel (m : AddressMapping) : Bool :=
  m.data_type == js "modified channel"

/-- `Array.from(new Set(xs))`: deduplicate keeping first occurrences. -/
def dedupKeepFirstAux (seen : List Int) : List Int → List Int
  | [] => []
  | x :: xs =>
    if x ∈ seen then dedupKeepFirstAux seen xs
    else x :: dedupKeepFirstAux (x :: seen) xs

/-- `Array.from(new Set(xs))` on the accumulated bit list. -/
def dedupKeepFirst (xs : List Int) : List Int := dedupKeepFirstAux [] xs

/-- The fallback loop of `extractUsedBits`: collect bits from the related
individual boolean entries. -/
def extractUsedBitsFallback (mappings : List AddressMapping) (baseAddress : JStr) : List Int :=
  let usedBits := mappings.foldl (fun acc m =>
    if m.data_type == js "BOOL" && jsStartsWith m.plc_reg_add (baseAddress ++ js ".") then
      match m.bit_list with
      | some l => acc ++ l.filter (fun bit => decide (0 ≤ bit ∧ bit ≤ 15))
      | none =>
        let bitPart := (splitDot m.plc_reg_add).getD 1 []
        if bitPart = [] then acc
        else
          match jsParseInt bitPart with
          | some n => if 0 ≤ n ∧ n ≤ 15 then acc ++ [n] else acc
          | none => acc
    else acc) []
  dedupKeepFirst usedBits

/-- `extractUsedBits` from address-mappings-table.tsx: prefer the channel
mapping's `bit_list`, otherwise fall back to parsing the related
individual boolean entries. -/
def extractUsedBits (mappings : List AddressMapping) (channelAddress : JStr) : List Int :=
  let baseAddress := (splitDot channelAddress).getD 0 []
  match mappings.find? (fun m =>
      m.plc_reg_add == baseAddress && (isBoolChannel m || isModifiedChannel m)) with
  | some channelMapping =>
    match channelMapping.bit_list with
    | some l => l.filter (fun bit => decide (0 ≤ bit ∧ bit ≤ 15))
    | none => extractUsedBitsFallback mappings baseAddress
  | none => extractUsedBitsFallback mappings baseAddress

/-- `getValidPlcNo` from address-mappings-table.tsx, on an integer
configuration value: non-positive values fall back to 1. -/
def getValidPlcNo (plcNo : Int) : Nat :=
  if 0 < plcNo then plcNo.toNat else 1

/-- A toggled bit rendered as a two-digit address part:
`bit.toString().padStart(2, '0')`. -/
def bitToStr2 (bit : Int) : JStr := padStart2 (intToStr bit)

/-- The removal condition inside `toggleBit`: an individual (non-channel)
boolean mapping under the toggled channel's base address. -/
def removesIndivBool (baseAddress : JStr) (m : AddressMapping) : Bool :=
  m.data_type == js "BOOL" && jsStartsWith m.plc_reg_add (baseAddress ++ js ".")
    && !jsEndsWith m.opcua_reg_add (js "_BC")

/-- The individual boolean mapping `toggleBit` re-emits for one surviving
bit. -/
def toggledBitMapping (baseAddress : JStr) (bit : Int) (validPlcNumber : Nat) :
    AddressMapping :=
  { plc_reg_add := baseAddress ++ js "." ++ bitToStr2 bit,
    data_type := js "BOOL",
    opcua_reg_add := generateOpcuaName baseAddress (js "BOOL") (some (bitToStr2 bit))
      false validPlcNumber }

/-- `toggleBit` from address-mappings-table.tsx.  `currentBits` is the
`channelBitStates` memo entry for the channel's index, which the component
derives from the current mapping list with `extractUsedBits`. -/
def toggleBit (mappings : List AddressMapping) (channelIndex : Nat) (bitNumber : Int)
    (plcNo : Int) : List AddressMapping :=
  match mappings.get? channelIndex with
  | none => mappings
  | some channelMapping =>
    if isBoolChannel channelMapping then
      let baseAddress := (splitDot channelMapping.plc_reg_add).getD 0 []
      let currentBits := extractUsedBits mappings channelMapping.plc_reg_add
      let newMappings := mappings.filter (fun m => !removesIndivBool baseAddress m)
      let newBits :=
        if currentBits.contains bitNumber then currentBits.erase bitNumber
        else currentBits ++ [bitNumber]
      let validPlcNumber := getValidPlcNo plcNo
      newMappings ++ newBits.map (fun bit => toggledBitMapping baseAddress bit validPlcNumber)
    else mappings

/-- The editable field names of a mapping (`keyof AddressMapping` as used
by the table's update handler). -/
inductive MappingField where
  | plcRegAddF | dataTypeF | opcuaRegAddF | descriptionF
deriving DecidableEq, Repr

/-- `mapping[field] = value`. -/
def setField (m : AddressMapping) : MappingField → JStr → AddressMapping
  | .plcRegAddF, v => { m with plc_reg_add := v }
  | .dataTypeF, v => { m with data_type := v }
  | .opcuaRegAddF, v => { m with opcua_reg_add := v }
  | .descriptionF, v => { m with description := v }

/-- `Array.prototype.map` with the element index. -/
def mapWithIdxAux (f : Nat → α → β) : Nat → List α → List β
  | _, [] => []
  | i, x :: xs => f i x :: mapWithIdxAux f (i + 1) xs

/-- `Array.prototype.map` with the element index, starting at 0. -/
def mapWithIdx (f : Nat → α → β) (l : List α) : List β := mapWithIdxAux f 0 l

/-- The identifier-regeneration block of `debouncedUpdateMapping`
(address-mappings-table.tsx): branch on the effective data type and call
`generateOpcuaName` on the base part of the effective address. -/
def regeneratedOpcua (plcAddress dataType : JStr) (plcNo : Int) : JStr :=
  let plcNumber := getValidPlcNo plcNo
  let baseAddr := (splitDot plcAddress).getD 0 []
  if dataType = js "CHANNEL" then
    generateOpcuaName baseAddr (js "CHANNEL") none false plcNumber
  else if dataType = js "modified channel" then
    generateOpcuaName baseAddr (js "MODIFIED CHANNEL") none false plcNumber
  else if dataType = js "BOOL" ∧ jsIncludes plcAddress '.' then
    generateOpcuaName baseAddr (js "BOOL") (some ((splitDot plcAddress).getD 1 []))
      false plcNumber
  else generateOpcuaName baseAddr dataType none false plcNumber

/-- `debouncedUpdateMapping` from address-mappings-table.tsx: write the
edited field and, on an address or type edit with both effective values
non-empty, regenerate the OPC UA identifier. -/
def debouncedUpdateMapping (mappings : List AddressMapping) (index : Nat)
    (field : MappingField) (value : JStr) (plcNo : Int) : List AddressMapping :=
  mapWithIdx (fun i m =>
    if i = index then
      let updated := setField m field value
      if field = .plcRegAddF ∨ field = .dataTypeF then
        let plcAddress := if field = .plcRegAddF then value else m.plc_reg_add
        let dataType := if field = .dataTypeF then value else m.data_type
        if plcAddress ≠ [] ∧ dataType ≠ [] then
          { updated with opcua_reg_add := regeneratedOpcua plcAddress dataType plcNo }
        else updated
      else updated
    else m) mappings

/-! ## plc-config-builder.tsx -/

/-- The loop of `dedupeByOpcuaName`, with the `seen` set of keys. -/
def dedupeGo (plcName : JStr) : List AddressMapping → List JStr → List AddressMapping
  | [], _ => []
  | m :: rest, seen =>
    let key := plcName ++ js "|" ++ m.opcua_reg_add
    if key ∈ seen then dedupeGo plcName rest seen
    else m :: dedupeGo plcName rest (key :: seen)

/-- `dedupeByOpcuaName` from plc-config-builder.tsx: drop mappings whose
`plcName|opcua_reg_add` key was already seen, keeping first occurrences. -/
def dedupeByOpcuaName (mappings : List AddressMapping) (plcName : JStr) : List AddressMapping :=
  dedupeGo plcName mappings []

/-! ## Derived row classifiers used in the statements

These repeat the per-row decisions of `processRow` as partial projections,
so that theorems can speak about the rows of an input grid. -/

/-- The boolean-group key and bucket entry a row contributes, `none` for
rows that are short, unsupported or not of declared type `BOOL`. -/
def entryOfRow (row : List JStr) : Option (JStr × BitEntry) :=
  if row.length < 4 then none
  else
    let dType := row.getD 1 []
    let addr := row.getD 2 []
    if isSupportedMemoryArea addr then
      if dType = js "BOOL" then
        let nb := normalizeBooleanAddress (normalizeEAddress addr)
        some ((splitDot nb).getD 0 [],
          ⟨addr, nb, (splitDot nb).getD 1 [], row.getD 3 [], valueOrZero (row.getD 4 [])⟩)
      else none
    else none

/-- The normalized base address of a contributing boolean row. -/
def boolBaseOfRow (row : List JStr) : Option JStr :=
  (entryOfRow row).map Prod.fst

/-- How many boolean records of the grid contribute to base address `b`. -/
def boolRecordCount (csvData : List (List JStr)) (b : JStr) : Nat :=
  (csvData.filterMap boolBaseOfRow).count b

/-- The skipped-report entry a row contributes, `none` for rows that are
short or supported. -/
def skipOfRow (row : List JStr) : Option SkippedAddr :=
  if row.length < 4 then none
  else
    let addr := row.getD 2 []
    if isSupportedMemoryArea addr then none
    else some ⟨addr, row.getD 1 [], row.getD 3 [], js "Unsupported memory area"⟩

/-- A grouped boolean-channel mapping for base address `b`: declared type
`BOOL` and the bare base as its source address. -/
def isChannelMappingFor (b : JStr) (m : AddressMapping) : Bool :=
  m.data_type == js "BOOL" && m.plc_reg_add == b

/-- An individual boolean mapping for base address `b`: declared type
`BOOL` and a dotted `base.bit` source address with base `b`. -/
def isIndivBoolMappingFor (b : JStr) (m : AddressMapping) : Bool :=
  m.data_type == js "BOOL" && jsIncludes m.plc_reg_add '.'
    && (splitDot m.plc_reg_add).getD 0 [] == b

/-- A boolean-channel mapping as the batch builder emits it: declared type
`BOOL`, a dot-free (grouped) source address and the `_BC` identifier
ending. -/
def isGroupedChannelMapping (m : AddressMapping) : Bool :=
  m.data_type == js "BOOL" && !jsIncludes m.plc_reg_add '.'
    && jsEndsWith m.opcua_reg_add (js "_BC")

/-! ## Statements taken from the specification's words

`supportedAreaAmendedSpec` and `keepFirstByKey` restate claim language
(amended where a counterexample forces it); the theorems below compare
them with the definitions taken from the source. -/

/-- Amended support rule, following the claim's rule order: reject the
empty address; reject every address of three or more characters whose
second character is neither a digit nor a period; otherwise accept every
address beginning with a digit; otherwise accept exactly the whitelist
first letters. -/
def supportedAreaAmendedSpec (address : JStr) : Bool :=
  match address with
  | [] => false
  | c1 :: rest =>
    if 2 ≤ rest.length ∧ ¬((rest.headD ' ').isDigit ∨ rest.headD ' ' = '.') then false
    else if c1.isDigit then true
    else decide (c1 ∈ ['D', 'W', 'H', 'A', 'E', 'T', 'C'])

/-- The export deduplication key of a mapping. -/
def dedupeKey (plcName : JStr) (m : AddressMapping) : JStr :=
  plcName ++ js "|" ++ m.opcua_reg_add

/-- Keep-first deduplication as the specification words it: walking the
list in order, drop every mapping whose key already occurred among the
earlier elements. -/
def keepFirstAux (plcName : JStr) (before : List AddressMapping) :
    List AddressMapping → List AddressMapping
  | [] => []
  | m :: rest =>
    if before.any (fun m2 => dedupeKey plcName m2 == dedupeKey plcName m) then
      keepFirstAux plcName (before ++ [m]) rest
    else m :: keepFirstAux plcName (before ++ [m]) rest

/-- Keep-first deduplication over the whole list. -/
def keepFirstByKey (plcName : JStr) (mappings : List AddressMapping) : List AddressMapping :=
  keepFirstAux plcName [] mappings

/-- The non-boolean mapping a row contributes directly (`CHANNEL` or other
data types), as a zero-or-one element list. -/
def otherOfRow (plcNumber : Nat) (row : List JStr) : List AddressMapping :=
  if row.length < 4 then []
  else
    let dType := row.getD 1 []
    let addr := row.getD 2 []
    if isSupportedMemoryArea addr then
      let normalizedAddress := normalizeEAddress addr
      if dType = js "BOOL" then []
      else if dType = js "CHANNEL" then
        [{ plc_reg_add := normalizedAddress, data_type := js "CHANNEL",
           opcua_reg_add := generateOpcuaName normalizedAddress (js "CHANNEL") none false plcNumber }]
      else
        [{ plc_reg_add := normalizedAddress, data_type := dType,
           opcua_reg_add := generateOpcuaName normalizedAddress dType none false plcNumber }]
    else []

/-- `booleanGroups.get(b)` with the empty bucket for a missing key. -/
def lookupGroup : Groups → JStr → List BitEntry
  | [], _ => []
  | (k, es) :: rest, b => if k = b then es else lookupGroup rest b

/-- Structural invariant of the `booleanGroups` map: keys occur once and
are dot-free, and every bucket entry's normalized address is dotted with
its bucket's key as base. -/
def GroupsWF (g : Groups) : Prop :=
  (g.map Prod.fst).Nodup ∧
  ∀ kv ∈ g, jsIncludes kv.1 '.' = false ∧
    ∀ e ∈ kv.2, (splitDot e.normalizedAddress).getD 0 [] = kv.1 ∧
      jsIncludes e.normalizedAddress '.' = true

/-- The result of an address or type edit on one mapping, as claimed:
write the field, then regenerate the identifier from the effective
address and type when both are non-empty. -/
def regenEditResult (m : AddressMapping) (f : MappingField) (v : JStr) (plcNo : Int) :
    AddressMapping :=
  let plcAddress := if f = MappingField.plcRegAddF then v else m.plc_reg_add
  let dataType := if f = MappingField.dataTypeF then v else m.data_type
  if plcAddress ≠ [] ∧ dataType ≠ [] then
    { setField m f v with opcua_reg_add := regeneratedOpcua plcAddress dataType plcNo }
  else setField m f v

/-- How one row transforms the `booleanGroups` map. -/
def groupsStep (g : Groups) (row : List JStr) : Groups :=
  match entryOfRow row with
  | some ke => addToGroups g ke.1 ke.2
  | none => g

/-! ## Helper lemmas -/

theorem dedupeGo_eq_keepFirstAux (plcName : JStr) (l : List AddressMapping) :
    ∀ (seen : List JStr) (before : List AddressMapping),
      (∀ m, dedupeKey plcName m ∈ seen ↔
        ∃ m2 ∈ before, dedupeKey plcName m2 = dedupeKey plcName m) →
      dedupeGo plcName l seen = keepFirstAux plcName before l := by
  have hany : ∀ (before : List AddressMapping) (m : AddressMapping),
      (before.any fun m2 => dedupeKey plcName m2 == dedupeKey plcName m) = true ↔
        ∃ m2 ∈ before, dedupeKey plcName m2 = dedupeKey plcName m := by
    intro before m
    simp [List.any_eq_true, beq_iff_eq]
  induction l with
  | nil => intro seen before _; rfl
  | cons m rest ih =>
    intro seen before hinv
    have lhs : dedupeGo plcName (m :: rest) seen =
        if dedupeKey plcName m ∈ seen then dedupeGo plcName rest seen
        else m :: dedupeGo plcName rest (dedupeKey plcName m :: seen) := rfl
    have rhs : keepFirstAux plcName before (m :: rest) =
        if (before.any fun m2 => dedupeKey plcName m2 == dedupeKey plcName m) = true then
          keepFirstAux plcName (before ++ [m]) rest
        else m :: keepFirstAux plcName (before ++ [m]) rest := rfl
    rw [lhs, rhs]
    by_cases hk : dedupeKey plcName m ∈ seen
    · rw [if_pos hk, if_pos ((hany before m).mpr ((hinv m).mp hk))]
      refine ih seen (before ++ [m]) (fun m' => ?_)
      rw [hinv m']
      constructor
      · rintro ⟨m2, hm2, he⟩
        exact ⟨m2, List.mem_append_left _ hm2, he⟩
      · rintro ⟨m2, hm2, he⟩
        rcases List.mem_append.mp hm2 with h | h
        · exact ⟨m2, h, he⟩
        · have hm : m2 = m := by simpa using h
          exact (hinv m').mp (by rw [← he, hm]; exact hk)
    · rw [if_neg hk, if_neg (fun h => hk ((hinv m).mpr ((hany before m).mp h)))]
      refine congrArg (m :: ·) (ih (dedupeKey plcName m :: seen) (before ++ [m]) (fun m' => ?_))
      rw [List.mem_cons, hinv m']
      constructor
      · rintro (h | ⟨m2, hm2, he⟩)
        · exact ⟨m, List.mem_append_right _ (by simp), h.symm⟩
        · exact ⟨m2, List.mem_append_left _ hm2, he⟩
      · rintro ⟨m2, hm2, he⟩
        rcases List.mem_append.mp hm2 with h | h
        · exact Or.inr ⟨m2, h, he⟩
        · have hm : m2 = m := by simpa using h
          exact Or.inl (by rw [← he, hm])

theorem dedupeGo_idem (plcName : JStr) (l : List AddressMapping) :
    ∀ seen, dedupeGo plcName (dedupeGo plcName l seen) seen = dedupeGo plcName l seen := by
  induction l with
  | nil => intro seen; rfl
  | cons m rest ih =>
    intro seen
    have lhs : dedupeGo plcName (m :: rest) seen =
        if dedupeKey plcName m ∈ seen then dedupeGo plcName rest seen
        else m :: dedupeGo plcName rest (dedupeKey plcName m :: seen) := rfl
    by_cases hk : dedupeKey plcName m ∈ seen
    · rw [lhs]
      simp only [if_pos hk]
      exact ih seen
    · rw [lhs]
      simp only [if_neg hk]
      have outer : dedupeGo plcName (m :: dedupeGo plcName rest (dedupeKey plcName m :: seen)) seen =
          if dedupeKey plcName m ∈ seen then
            dedupeGo plcName (dedupeGo plcName rest (dedupeKey plcName m :: seen)) seen
          else m :: dedupeGo plcName (dedupeGo plcName rest (dedupeKey plcName m :: seen))
            (dedupeKey plcName m :: seen) := rfl
      rw [outer]
      simp only [if_neg hk]
      exact congrArg (m :: ·) (ih _)

/-! ## Claim theorems -/

/-- C4. Export deduplication keeps exactly the first occurrence of each
`(plcName, targetIdentifier)` pair, in list order, and is idempotent. -/
theorem dedupeByOpcuaName_keepFirst_idempotent (mappings : List AddressMapping)
    (plcName : JStr) :
    dedupeByOpcuaName mappings plcName = keepFirstByKey plcName mappings ∧
    dedupeByOpcuaName (dedupeByOpcuaName mappings plcName) plcName =
      dedupeByOpcuaName mappings plcName := by
  constructor
  · exact dedupeGo_eq_keepFirstAux plcName mappings [] [] (by simp)
  · exact dedupeGo_idem plcName mappings []

/-- C5 (counterexample). The claim rejects every address of two or more
characters whose second character is a letter, but the two-character
address CF is accepted by the code: the two-letter-area check only fires
from length three on. -/
theorem isSupportedMemoryArea_CF_accepted : isSupportedMemoryArea (js "CF") = true := by
  decide

/-- C5 (amended). The supported-area check rejects the empty address,
rejects every address of three or more characters whose second character
is neither a digit nor a period, otherwise accepts every address
beginning with a digit, and otherwise accepts exactly the first letters
D, W, H, A, E, T, C. -/
theorem isSupportedMemoryArea_characterized (a : JStr) :
    isSupportedMemoryArea a = supportedAreaAmendedSpec a := by
  cases a with
  | nil => rfl
  | cons c1 rest =>
    have hgd : (c1 :: rest : JStr).getD 1 ' ' = rest.headD ' ' := by
      cases rest <;> simp [List.getD]
    have hwl : (['D', 'W', 'H', 'A', 'E', 'T', 'C'].any fun p => jsStartsWith (c1 :: rest) [p])
        = decide (c1 ∈ ['D', 'W', 'H', 'A', 'E', 'T', 'C']) := by
      have h1 : ∀ p, jsStartsWith (c1 :: rest) [p] = (c1 == p) := by
        intro p
        simp [jsStartsWith]
      simp only [List.any_cons, List.any_nil, h1, List.mem_cons, List.not_mem_nil, or_false]
      apply Bool.eq_iff_iff.mpr
      simp [beq_iff_eq, decide_eq_true_eq]
    have hc : (3 ≤ (c1 :: rest : JStr).length ∧
          ¬(((c1 :: rest : JStr).getD 1 ' ').isDigit = true ∨ (c1 :: rest : JStr).getD 1 ' ' = '.'))
        ↔ (2 ≤ rest.length ∧ ¬((rest.headD ' ').isDigit = true ∨ rest.headD ' ' = '.')) := by
      rw [hgd, List.length_cons]
      constructor <;> (rintro ⟨hl, hr⟩; exact ⟨by omega, hr⟩)
    simp only [isSupportedMemoryArea, supportedAreaAmendedSpec]
    rw [if_neg (by simp : ¬ ((c1 :: rest : JStr) = []))]
    by_cases hcond : 2 ≤ rest.length ∧ ¬((rest.headD ' ').isDigit = true ∨ rest.headD ' ' = '.')
    · rw [if_pos (hc.mpr hcond), if_pos hcond]
    · rw [if_neg (fun h => hcond (hc.mp h)), if_neg hcond]
      simp only [startsWithDigit]
      rw [hwl]

/-- C9. The identifier generator is deterministic, and for fixed address,
type, bit position and grouping flag all PLC ordinals produce the same
tail after the leading P-and-ordinal segment: only that segment depends
on the ordinal. -/
theorem generateOpcuaName_plc_segment (address dataType : JStr) (bitPosition : Option JStr)
    (isBooleanChannel : Bool) :
    ∃ rest : JStr, ∀ plcNumber : Nat,
      generateOpcuaName address dataType bitPosition isBooleanChannel plcNumber =
        js "P" ++ natToStr plcNumber ++ rest := by
  by_cases h1 : dataType = js "BOOL"
  · cases hb : isBooleanChannel
    · refine ⟨js "_" ++ memoryAreaPrefixOf address ++ js "_" ++
        (if startsWithDigit address then address else address.drop 1) ++ js "_B" ++
        (match bitPosition with | some b => if b = [] then js "00" else b | none => js "00"),
        fun n => ?_⟩
      simp [generateOpcuaName, h1, List.append_assoc]
    · refine ⟨js "_" ++ memoryAreaPrefixOf address ++ js "_" ++
        (if startsWithDigit address then address else address.drop 1) ++ js "_BC", fun n => ?_⟩
      simp [generateOpcuaName, h1, List.append_assoc]
  · by_cases h2 : dataType = js "CHANNEL" ∨ dataType = js "channel"
    · refine ⟨js "_" ++ memoryAreaPrefixOf address ++ js "_" ++
        (if startsWithDigit address then address else address.drop 1) ++ js "_C", fun n => ?_⟩
      simp [generateOpcuaName, h1, h2, List.append_assoc]
    · refine ⟨js "_" ++ memoryAreaPrefixOf address ++ js "_" ++
        (if startsWithDigit address then address else address.drop 1) ++ js "_W" ++
        natToStr (dataTypeSuffixNum (jsToUpper dataType)), fun n => ?_⟩
      simp [generateOpcuaName, h1, h2, List.append_assoc]

/-- C2 (counterexample). For boolean rows at raw addresses E999.1 and
E999.3 the unique emitted channel mapping has source address E999, not
E0999: `normalizeEAddress` measures the whole part after the E, so the
dotted boolean form is never zero-padded. -/
theorem scenarioB_base_not_E0999 :
    ((parseCSVData [[js "", js "BOOL", js "E999.1", js "d1"],
        [js "", js "BOOL", js "E999.3", js "d2"]] 1).addressMappings.filter
      (fun m => jsEndsWith m.opcua_reg_add (js "_BC"))).map (fun m => m.plc_reg_add)
      = [js "E999"]
    ∧ (parseCSVData [[js "", js "BOOL", js "E999.1", js "d1"],
        [js "", js "BOOL", js "E999.3", js "d2"]] 1).addressMappings.countP
      (fun m => m.plc_reg_add == js "E0999") = 0 := by
  decide

/-- C2 (amended). For the two boolean rows at base E999 (bits 1 and 3)
the batch builder emits exactly one channel mapping, with source address
E999 and identifier ending in the channel suffix, records both original
addresses among the merged boolean addresses, and reports one boolean
channel in the statistics. -/
theorem scenarioB_amended :
    (parseCSVData [[js "", js "BOOL", js "E999.1", js "d1"],
        [js "", js "BOOL", js "E999.3", js "d2"]] 1).addressMappings =
      [{ plc_reg_add := js "E999", data_type := js "BOOL",
         opcua_reg_add := js "P1_E_999_BC" }]
    ∧ jsEndsWith (js "P1_E_999_BC") (js "_BC") = true
    ∧ (parseCSVData [[js "", js "BOOL", js "E999.1", js "d1"],
        [js "", js "BOOL", js "E999.3", js "d2"]] 1).modifiedChannelAddresses =
      [js "E999.1", js "E999.3"]
    ∧ (parseCSVData [[js "", js "BOOL", js "E999.1", js "d1"],
        [js "", js "BOOL", js "E999.3", js "d2"]] 1).stats.booleanChannels = 1 := by
  decide

/-- C6 (counterexample). The skip reason recorded for the unsupported
address CF10 is the capitalized string, not the all-lowercase string the
claim demands. -/
theorem skipped_reason_capitalized :
    (parseCSVData [[js "", js "WORD", js "CF10", js "d"]] 1).skippedAddresses.map
      (fun sk => sk.reason) = [js "Unsupported memory area"]
    ∧ js "Unsupported memory area" ≠ js "unsupported memory area"
    ∧ (parseCSVData [[js "", js "WORD", js "CF10", js "d"]] 1).addressMappings = [] := by
  decide

/-- C7 (counterexample). A three-column row is dropped from the mappings
and the skip list, but it is counted by `stats.totalRecords`, which is
the length of the whole input grid — contradicting the claim that such a
row contributes to no returned statistic. -/
theorem short_row_counted_in_totalRecords :
    (parseCSVData [[js "a", js "b", js "c"]] 1).addressMappings = []
    ∧ (parseCSVData [[js "a", js "b", js "c"]] 1).skippedAddresses = []
    ∧ (parseCSVData [[js "a", js "b", js "c"]] 1).stats.totalRecords = 1
    ∧ (parseCSVData [[js "a", js "b", js "c"]] 1).stats.totalRecords ≠ 0 := by
  decide

/-- C8 (counterexample). Editing the data type of a mapping whose address
is empty leaves the stored identifier untouched: the regeneration block
is guarded by the truthiness of both the effective address and type, so
the overwrite is not unconditional. -/
theorem updateMapping_skips_regen_on_empty_address :
    (debouncedUpdateMapping [⟨[], js "WORD", js "HANDEDIT", none, []⟩]
        0 .dataTypeF (js "UDINT") 1).map
      (fun m => m.opcua_reg_add) = [js "HANDEDIT"]
    ∧ js "HANDEDIT" ≠ regeneratedOpcua [] (js "UDINT") 1 := by
  decide

theorem mapWithIdxAux_congr {α β : Type} (f g : Nat → α → β) (h : ∀ i x, f i x = g i x) :
    ∀ (k : Nat) (l : List α), mapWithIdxAux f k l = mapWithIdxAux g k l := by
  intro k l
  induction l generalizing k with
  | nil => rfl
  | cons x xs ih => simp [mapWithIdxAux, h, ih]

theorem mapWithIdxAux_shift {α β : Type} (f : Nat → α → β) :
    ∀ (l : List α) (k : Nat),
      mapWithIdxAux f (k + 1) l = mapWithIdxAux (fun i x => f (i + 1) x) k l := by
  intro l
  induction l with
  | nil => intro k; rfl
  | cons x xs ih => intro k; simp [mapWithIdxAux, ih]

theorem mapWithIdxAux_id {α : Type} :
    ∀ (l : List α) (k : Nat), mapWithIdxAux (fun _ x => x) k l = l := by
  intro l
  induction l with
  | nil => intro k; rfl
  | cons x xs ih => intro k; simp [mapWithIdxAux, ih]

theorem mapWithIdx_ite_set {α : Type} (g : α → α) :
    ∀ (l : List α) (i : Nat) (a : α), l.get? i = some a →
      mapWithIdx (fun j x => if j = i then g x else x) l = l.set i (g a) := by
  intro l
  induction l with
  | nil => intro i a h; simp at h
  | cons x xs ih =>
    intro i a h
    cases i with
    | zero =>
      have hx : a = x := by simpa using h.symm
      subst hx
      show (if 0 = 0 then g a else a) :: mapWithIdxAux _ 1 xs = g a :: xs
      rw [if_pos rfl, mapWithIdxAux_shift]
      have : mapWithIdxAux (fun i x => if i + 1 = 0 then g x else x) 0 xs = xs := by
        rw [mapWithIdxAux_congr _ (fun _ x => x) (by intro i x; simp)]
        exact mapWithIdxAux_id xs 0
      rw [this]
    | succ i' =>
      have hx : xs.get? i' = some a := by simpa using h
      show (if 0 = i' + 1 then g x else x) :: mapWithIdxAux _ 1 xs = x :: xs.set i' (g a)
      rw [if_neg (by omega), mapWithIdxAux_shift]
      rw [mapWithIdxAux_congr _ (fun j y => if j = i' then g y else y) (by intro j y; simp)]
      exact congrArg (x :: ·) (ih i' a hx)

/-- C8 (amended). An address or type edit on mapping M regenerates the
identifier from the effective address and type — provided both are
non-empty; an empty effective address or type leaves the identifier
untouched. All other list entries are unchanged. -/
theorem updateMapping_regenerates (mappings : List AddressMapping) (index : Nat)
    (f : MappingField) (v : JStr) (plcNo : Int) (m : AddressMapping)
    (hget : mappings.get? index = some m)
    (hf : f = MappingField.plcRegAddF ∨ f = MappingField.dataTypeF) :
    debouncedUpdateMapping mappings index f v plcNo =
      mappings.set index (regenEditResult m f v plcNo) := by
  unfold debouncedUpdateMapping
  rw [mapWithIdx_ite_set _ mappings index m hget]
  congr 1
  rcases hf with rfl | rfl <;> simp [regenEditResult]

/-- Closed instance of the amended C8 theorem at a concrete edit. -/
theorem updateMapping_regenerates_witness :
    debouncedUpdateMapping [⟨js "D10", js "WORD", js "X", none, []⟩]
        0 MappingField.plcRegAddF (js "D20") 1 =
      [regenEditResult ⟨js "D10", js "WORD", js "X", none, []⟩
        MappingField.plcRegAddF (js "D20") 1] := by
  have h := updateMapping_regenerates [⟨js "D10", js "WORD", js "X", none, []⟩]
    0 MappingField.plcRegAddF (js "D20") 1 ⟨js "D10", js "WORD", js "X", none, []⟩
    (by rfl) (Or.inl rfl)
  rw [h]
  rfl

theorem endsWith_BC_of_append03 (xs : JStr) :
    jsEndsWith (xs ++ js "03") (js "_BC") = false := by
  show jsStartsWith (xs ++ js "03").reverse (js "_BC").reverse = false
  rw [List.reverse_append]
  have h03 : (js "03").reverse = ['3', '0'] := by decide
  have hBC : (js "_BC").reverse = ['C', 'B', '_'] := by decide
  rw [h03, hBC]
  simp [jsStartsWith]

theorem countP_filter_of_imp {α : Type} (p q : α → Bool) (l : List α)
    (h : ∀ a, p a = true → q a = true) : (l.filter q).countP p = l.countP p := by
  induction l with
  | nil => rfl
  | cons x xs ih =>
    by_cases hq : q x = true
    · rw [List.filter_cons_of_pos hq, List.countP_cons, List.countP_cons, ih]
    · have hp : ¬ p x = true := fun hp => hq (h x hp)
      rw [List.filter_cons_of_neg hq, List.countP_cons, ih]
      simp [hp]

theorem isBoolChannel_toggledBitMapping (base : JStr) (n : Nat) :
    isBoolChannel (toggledBitMapping base 3 n) = false := by
  have hb : bitToStr2 3 = js "03" := by decide
  simp only [isBoolChannel, toggledBitMapping, hb]
  have hgen : generateOpcuaName base (js "BOOL") (some (js "03")) false n =
      (js "P" ++ natToStr n ++ js "_" ++ memoryAreaPrefixOf base ++ js "_" ++
        (if startsWithDigit base then base else base.drop 1) ++ js "_B") ++ js "03" := by
    simp [generateOpcuaName, List.append_assoc]
    intro h
    exact absurd h (by decide)
  rw [hgen, endsWith_BC_of_append03]
  simp

/-- C3 (counterexample). Toggling bit 5 off a channel with bits 3 and 5
leaves its channel entry in the list: afterwards the base still has one
channel mapping whose derived bit set holds the single bit 3 — a one-bit
channel, which the claim says cannot exist. -/
theorem toggleBit_retains_one_bit_channel :
    (toggleBit [⟨js "E999", js "BOOL", js "P1_E_999_BC", none, []⟩,
        ⟨js "E999.03", js "BOOL", js "P1_E_999_B03", none, []⟩,
        ⟨js "E999.05", js "BOOL", js "P1_E_999_B05", none, []⟩] 0 5 1).countP
      (fun m => isBoolChannel m && m.plc_reg_add == js "E999") = 1
    ∧ extractUsedBits (toggleBit [⟨js "E999", js "BOOL", js "P1_E_999_BC", none, []⟩,
        ⟨js "E999.03", js "BOOL", js "P1_E_999_B03", none, []⟩,
        ⟨js "E999.05", js "BOOL", js "P1_E_999_B05", none, []⟩] 0 5 1) (js "E999") = [3] := by
  decide

/-- C3 (amended). Toggling bit 5 off a boolean channel whose current bit
set is exactly 3 and 5 removes every individual non-channel boolean
mapping under the channel's base and re-emits exactly one individual
mapping, for bit 3, with its generated identifier — and the toggle
neither creates nor removes any channel entry for that base (in
particular the pre-existing channel mapping survives). -/
theorem toggleBit_regenerates_group (mappings : List AddressMapping) (i : Nat) (plcNo : Int)
    (cm : AddressMapping) (hget : mappings.get? i = some cm)
    (hchan : isBoolChannel cm = true)
    (hbits : extractUsedBits mappings cm.plc_reg_add = [3, 5] ∨
             extractUsedBits mappings cm.plc_reg_add = [5, 3]) :
    toggleBit mappings i 5 plcNo =
      mappings.filter (fun m => !removesIndivBool ((splitDot cm.plc_reg_add).getD 0 []) m)
        ++ [toggledBitMapping ((splitDot cm.plc_reg_add).getD 0 []) 3 (getValidPlcNo plcNo)]
    ∧ (toggleBit mappings i 5 plcNo).countP
        (fun m => isBoolChannel m &&
          ((splitDot m.plc_reg_add).getD 0 [] == (splitDot cm.plc_reg_add).getD 0 [])) =
      mappings.countP (fun m => isBoolChannel m &&
          ((splitDot m.plc_reg_add).getD 0 [] == (splitDot cm.plc_reg_add).getD 0 [])) := by
  have heq : toggleBit mappings i 5 plcNo =
      mappings.filter (fun m => !removesIndivBool ((splitDot cm.plc_reg_add).getD 0 []) m)
        ++ [toggledBitMapping ((splitDot cm.plc_reg_add).getD 0 []) 3 (getValidPlcNo plcNo)] := by
    unfold toggleBit
    rw [hget]
    simp only [hchan, if_true]
    rcases hbits with h | h <;> rw [h] <;> norm_num
  refine ⟨heq, ?_⟩
  rw [heq, List.countP_append]
  have hsing : List.countP
      (fun m => isBoolChannel m &&
        ((splitDot m.plc_reg_add).getD 0 [] == (splitDot cm.plc_reg_add).getD 0 []))
      [toggledBitMapping ((splitDot cm.plc_reg_add).getD 0 []) 3 (getValidPlcNo plcNo)] = 0 := by
    simp [List.countP_cons, isBoolChannel_toggledBitMapping]
  rw [hsing, Nat.add_zero]
  apply countP_filter_of_imp
  intro m hm
  have hbc : isBoolChannel m = true := by
    simp only [Bool.and_eq_true] at hm
    exact hm.1
  have hends : jsEndsWith m.opcua_reg_add (js "_BC") = true := by
    simp only [isBoolChannel, Bool.and_eq_true] at hbc
    exact hbc.2
  simp [removesIndivBool, hends]

/-- Closed instance of the amended C3 theorem at a concrete channel. -/
theorem toggleBit_regenerates_group_witness :
    toggleBit [⟨js "E999", js "BOOL", js "P1_E_999_BC", none, []⟩,
        ⟨js "E999.03", js "BOOL", js "P1_E_999_B03", none, []⟩,
        ⟨js "E999.05", js "BOOL", js "P1_E_999_B05", none, []⟩] 0 5 1 =
      ([⟨js "E999", js "BOOL", js "P1_E_999_BC", none, []⟩,
        ⟨js "E999.03", js "BOOL", js "P1_E_999_B03", none, []⟩,
        ⟨js "E999.05", js "BOOL", js "P1_E_999_B05", none, []⟩] : List AddressMapping).filter
        (fun m => !removesIndivBool ((splitDot (js "E999")).getD 0 []) m)
        ++ [toggledBitMapping ((splitDot (js "E999")).getD 0 []) 3 (getValidPlcNo 1)]
    ∧ (toggleBit [⟨js "E999", js "BOOL", js "P1_E_999_BC", none, []⟩,
        ⟨js "E999.03", js "BOOL", js "P1_E_999_B03", none, []⟩,
        ⟨js "E999.05", js "BOOL", js "P1_E_999_B05", none, []⟩] 0 5 1).countP
        (fun m => isBoolChannel m &&
          ((splitDot m.plc_reg_add).getD 0 [] == (splitDot (js "E999")).getD 0 [])) =
      List.countP (fun m => isBoolChannel m &&
          ((splitDot m.plc_reg_add).getD 0 [] == (splitDot (js "E999")).getD 0 []))
        [⟨js "E999", js "BOOL", js "P1_E_999_BC", none, []⟩,
        ⟨js "E999.03", js "BOOL", js "P1_E_999_B03", none, []⟩,
        ⟨js "E999.05", js "BOOL", js "P1_E_999_B05", none, []⟩] :=
  toggleBit_regenerates_group
    [⟨js "E999", js "BOOL", js "P1_E_999_BC", none, []⟩,
     ⟨js "E999.03", js "BOOL", js "P1_E_999_B03", none, []⟩,
     ⟨js "E999.05", js "BOOL", js "P1_E_999_B05", none, []⟩] 0 1
    ⟨js "E999", js "BOOL", js "P1_E_999_BC", none, []⟩
    (by decide) (by decide) (Or.inl (by decide))

theorem splitDot_ne_nil (s : JStr) : splitDot s ≠ [] := by
  cases s with
  | nil => simp [splitDot]
  | cons c rest =>
    simp only [splitDot]
    split
    · simp
    · split <;> simp

theorem splitDot_parts_no_dot (s : JStr) : ∀ p ∈ splitDot s, jsIncludes p '.' = false := by
  induction s with
  | nil =>
    intro p hp
    simp [splitDot] at hp
    subst hp
    rfl
  | cons c rest ih =>
    intro p hp
    by_cases hc : c = '.'
    · simp only [splitDot, if_pos hc] at hp
      rcases List.mem_cons.mp hp with rfl | hp
      · rfl
      · exact ih p hp
    · simp only [splitDot, if_neg hc] at hp
      rcases hsd : splitDot rest with _ | ⟨h, t⟩
      · exact absurd hsd (splitDot_ne_nil rest)
      · rw [hsd] at hp
        rcases List.mem_cons.mp hp with rfl | hp
        · have hh : jsIncludes h '.' = false := ih h (by rw [hsd]; exact List.mem_cons_self _ _)
          have hcb : (c == '.') = false := by simp [hc]
          simp only [jsIncludes, List.any_cons, hcb, Bool.false_or]
          simpa [jsIncludes] using hh
        · exact ih p (by rw [hsd]; exact List.mem_cons_of_mem _ hp)

theorem splitDot_head_no_dot (s : JStr) : jsIncludes ((splitDot s).getD 0 []) '.' = false := by
  rcases hsd : splitDot s with _ | ⟨h, t⟩
  · exact absurd hsd (splitDot_ne_nil s)
  · have : h ∈ splitDot s := by rw [hsd]; exact List.mem_cons_self _ _
    simpa using splitDot_parts_no_dot s h this

theorem normalizeBooleanAddress_dotted (a : JStr) :
    jsIncludes (normalizeBooleanAddress a) '.' = true := by
  have hdot : jsIncludes (js ".") '.' = true := by decide
  have hdot00 : jsIncludes (js ".00") '.' = true := by decide
  unfold normalizeBooleanAddress
  split
  · simp only [jsIncludes, List.any_append] at *
    simp [hdot]
  · simp only [jsIncludes, List.any_append] at *
    simp [hdot00]

theorem entryOfRow_wf (row : List JStr) (k : JStr) (e : BitEntry)
    (h : entryOfRow row = some (k, e)) :
    jsIncludes k '.' = false ∧ (splitDot e.normalizedAddress).getD 0 [] = k ∧
      jsIncludes e.normalizedAddress '.' = true := by
  unfold entryOfRow at h
  by_cases h4 : row.length < 4
  · rw [if_pos h4] at h; cases h
  · rw [if_neg h4] at h
    by_cases hs : isSupportedMemoryArea (row.getD 2 []) = true
    · rw [if_pos hs] at h
      by_cases hb : row.getD 1 [] = js "BOOL"
      · rw [if_pos hb] at h
        have hk : k = (splitDot (normalizeBooleanAddress (normalizeEAddress (row.getD 2 [])))).getD 0 [] := by
          injection h with h'
          exact (congrArg Prod.fst h').symm
        have he : e.normalizedAddress = normalizeBooleanAddress (normalizeEAddress (row.getD 2 [])) := by
          injection h with h'
          have := congrArg Prod.snd h'
          exact (congrArg BitEntry.normalizedAddress this).symm
        subst hk
        refine ⟨splitDot_head_no_dot _, ?_, ?_⟩
        · rw [he]
        · rw [he]; exact normalizeBooleanAddress_dotted _
      · rw [if_neg hb] at h; cases h
    · rw [if_neg hs] at h; cases h

theorem addToGroups_lookup (g : Groups) (b : JStr) (e : BitEntry) (b' : JStr) :
    lookupGroup (addToGroups g b e) b' =
      if b = b' then lookupGroup g b' ++ [e] else lookupGroup g b' := by
  induction g with
  | nil =>
    by_cases hb : b = b'
    · simp [addToGroups, lookupGroup, hb]
    · simp [addToGroups, lookupGroup, hb]
  | cons kv rest ih =>
    obtain ⟨k, es⟩ := kv
    by_cases hk : k = b
    · subst hk
      simp only [addToGroups, if_pos rfl]
      by_cases hb : k = b'
      · simp [lookupGroup, hb]
      · simp [lookupGroup, hb]
    · simp only [addToGroups, if_neg hk]
      by_cases hb : k = b'
      · subst hb
        have hbb : ¬ b = k := fun h => hk h.symm
        simp [lookupGroup, hbb]
      · simp [lookupGroup, hb, ih]

theorem mem_keys_addToGroups (g : Groups) (b : JStr) (e : BitEntry) (b' : JStr) :
    b' ∈ (addToGroups g b e).map Prod.fst ↔ b' ∈ g.map Prod.fst ∨ b' = b := by
  induction g with
  | nil => simp [addToGroups]
  | cons kv rest ih =>
    obtain ⟨k, es⟩ := kv
    by_cases hk : k = b
    · subst hk
      simp only [addToGroups, eq_self_iff_true, if_true, List.map_cons, List.mem_cons]
      tauto
    · simp only [addToGroups, if_neg hk, List.map_cons, List.mem_cons, ih]
      tauto

theorem nodup_keys_addToGroups (g : Groups) (b : JStr) (e : BitEntry)
    (h : (g.map Prod.fst).Nodup) : ((addToGroups g b e).map Prod.fst).Nodup := by
  induction g with
  | nil => simp [addToGroups]
  | cons kv rest ih =>
    obtain ⟨k, es⟩ := kv
    simp only [List.map_cons, List.nodup_cons] at h
    by_cases hk : k = b
    · subst hk
      simp only [addToGroups, eq_self_iff_true, if_true, List.map_cons, List.nodup_cons]
      exact h
    · simp only [addToGroups, if_neg hk, List.map_cons, List.nodup_cons]
      refine ⟨?_, ih h.2⟩
      intro hmem
      rcases (mem_keys_addToGroups rest b e k).mp hmem with hm | hm
      · exact h.1 hm
      · exact hk hm

theorem GroupsWF_addToGroups (g : Groups) (b : JStr) (e : BitEntry)
    (hwf : GroupsWF g) (hb : jsIncludes b '.' = false)
    (hbase : (splitDot e.normalizedAddress).getD 0 [] = b)
    (hdotted : jsIncludes e.normalizedAddress '.' = true) :
    GroupsWF (addToGroups g b e) := by
  obtain ⟨hnd, hmem⟩ := hwf
  refine ⟨nodup_keys_addToGroups g b e hnd, ?_⟩
  clear hnd
  induction g with
  | nil =>
    intro kv hkv
    simp [addToGroups] at hkv
    subst hkv
    exact ⟨hb, by intro e' he'; simp at he'; subst he'; exact ⟨hbase, hdotted⟩⟩
  | cons kv0 rest ih =>
    obtain ⟨k, es⟩ := kv0
    intro kv hkv
    by_cases hk : k = b
    · subst hk
      simp only [addToGroups, eq_self_iff_true, if_true] at hkv
      rcases List.mem_cons.mp hkv with rfl | hkv
      · have hh := hmem (k, es) (List.mem_cons_self _ _)
        refine ⟨hh.1, ?_⟩
        intro e' he'
        rcases List.mem_append.mp he' with he' | he'
        · exact hh.2 e' he'
        · have : e' = e := by simpa using he'
          subst this
          exact ⟨hbase, hdotted⟩
      · exact hmem kv (List.mem_cons_of_mem _ hkv)
    · simp only [addToGroups, if_neg hk] at hkv
      rcases List.mem_cons.mp hkv with rfl | hkv
      · exact hmem (k, es) (List.mem_cons_self _ _)
      · exact ih (fun kv' hkv' => hmem kv' (List.mem_cons_of_mem _ hkv')) kv hkv

theorem processRow_groups (plc : Nat) (st : LoopState) (row : List JStr) :
    (processRow plc st row).groups = groupsStep st.groups row := by
  simp only [processRow, entryOfRow, groupsStep]
  split_ifs <;> simp
theorem processRow_other (plc : Nat) (st : LoopState) (row : List JStr) :
    (processRow plc st row).otherMappings = st.otherMappings ++ otherOfRow plc row := by
  simp only [processRow, otherOfRow]
  split_ifs <;> simp
theorem processRow_skipped (plc : Nat) (st : LoopState) (row : List JStr) :
    (processRow plc st row).skippedAddresses =
      st.skippedAddresses ++ (skipOfRow row).toList := by
  simp only [processRow, skipOfRow]
  split_ifs <;> simp
theorem foldl_processRow_groups (plc : Nat) (rows : List (List JStr)) :
    ∀ st : LoopState, (rows.foldl (processRow plc) st).groups =
      rows.foldl groupsStep st.groups := by
  induction rows with
  | nil => intro st; rfl
  | cons row rest ih =>
    intro st
    rw [List.foldl_cons, List.foldl_cons, ih, processRow_groups]

theorem foldl_processRow_other (plc : Nat) (rows : List (List JStr)) :
    ∀ st : LoopState, (rows.foldl (processRow plc) st).otherMappings =
      st.otherMappings ++ rows.flatMap (otherOfRow plc) := by
  induction rows with
  | nil => intro st; simp
  | cons row rest ih =>
    intro st
    rw [List.foldl_cons, ih, processRow_other, List.flatMap_cons, List.append_assoc]

theorem foldl_processRow_skipped (plc : Nat) (rows : List (List JStr)) :
    ∀ st : LoopState, (rows.foldl (processRow plc) st).skippedAddresses =
      st.skippedAddresses ++ rows.filterMap skipOfRow := by
  induction rows with
  | nil => intro st; simp
  | cons row rest ih =>
    intro st
    rw [List.foldl_cons, ih, processRow_skipped]
    cases hsk : skipOfRow row <;> simp [hsk]

theorem lookup_foldl_groupsStep (b : JStr) (rows : List (List JStr)) :
    ∀ g : Groups, lookupGroup (rows.foldl groupsStep g) b =
      lookupGroup g b ++
        (((rows.filterMap entryOfRow).filter (fun ke => ke.1 = b)).map Prod.snd) := by
  induction rows with
  | nil => intro g; simp
  | cons row rest ih =>
    intro g
    rw [List.foldl_cons]
    cases hrow : entryOfRow row with
    | none =>
      rw [ih, List.filterMap_cons_none hrow]
      simp [groupsStep, hrow]
    | some ke =>
      obtain ⟨k, e⟩ := ke
      rw [ih, List.filterMap_cons_some hrow]
      simp only [groupsStep, hrow]
      rw [addToGroups_lookup]
      by_cases hk : k = b
      · subst hk
        simp [List.filter_cons, List.append_assoc]
      · simp [List.filter_cons, hk]

theorem GroupsWF_foldl (rows : List (List JStr)) :
    ∀ g : Groups, GroupsWF g → GroupsWF (rows.foldl groupsStep g) := by
  induction rows with
  | nil => intro g h; exact h
  | cons row rest ih =>
    intro g h
    rw [List.foldl_cons]
    refine ih _ ?_
    cases hrow : entryOfRow row with
    | none => simpa [groupsStep, hrow] using h
    | some ke =>
      obtain ⟨k, e⟩ := ke
      have hwf := entryOfRow_wf row k e hrow
      simp only [groupsStep, hrow]
      exact GroupsWF_addToGroups g k e h hwf.1 hwf.2.1 hwf.2.2

theorem GroupsWF_nil : GroupsWF [] := by
  constructor
  · simp
  · intro kv hkv; simp at hkv

theorem jsStartsWith_nil (s : JStr) : jsStartsWith s [] = true := by
  cases s <;> rfl

theorem jsStartsWith_append_self (p t : JStr) : jsStartsWith (p ++ t) p = true := by
  induction p with
  | nil => exact jsStartsWith_nil t
  | cons c ps ih => simp [jsStartsWith, ih]

theorem jsEndsWith_append_self (xs ys : JStr) : jsEndsWith (xs ++ ys) ys = true := by
  show jsStartsWith (xs ++ ys).reverse ys.reverse = true
  rw [List.reverse_append]
  exact jsStartsWith_append_self ys.reverse xs.reverse

theorem ne_of_dotted_dotfree (x y : JStr) (hx : jsIncludes x '.' = true)
    (hy : jsIncludes y '.' = false) : x ≠ y := by
  intro h
  rw [h, hy] at hx
  cases hx

theorem lookupGroup_eq_nil_of_not_mem (g : Groups) (b : JStr)
    (h : b ∉ g.map Prod.fst) : lookupGroup g b = [] := by
  induction g with
  | nil => rfl
  | cons kv rest ih =>
    obtain ⟨k, es⟩ := kv
    simp only [List.map_cons, List.mem_cons] at h
    push_neg at h
    have hk : ¬ (k = b) := fun he => h.1 he.symm
    simp only [lookupGroup, if_neg hk]
    exact ih h.2

theorem groupEmit_countP_channel (plc : Nat) (k : JStr) (bits : List BitEntry) (b : JStr)
    (hents : ∀ e ∈ bits, (splitDot e.normalizedAddress).getD 0 [] = k ∧
      jsIncludes e.normalizedAddress '.' = true)
    (hb : jsIncludes b '.' = false) :
    (groupEmit plc k bits).1.countP (isChannelMappingFor b) =
      if k = b ∧ 2 ≤ bits.length then 1 else 0 := by
  unfold groupEmit
  by_cases hlen : 1 < bits.length
  · rw [if_pos hlen]
    by_cases hkb : k = b
    · subst hkb
      have h2 : 2 ≤ bits.length := by omega
      simp [List.countP_cons, isChannelMappingFor, h2]
    · have hno : ¬ (k = b ∧ 2 ≤ bits.length) := fun h => hkb h.1
      simp [List.countP_cons, isChannelMappingFor, hkb, hno]
  · rw [if_neg hlen]
    have hno : ¬ (k = b ∧ 2 ≤ bits.length) := fun h => hlen (by omega)
    rw [if_neg hno]
    cases bits with
    | nil => rfl
    | cons e rest =>
      have he := hents e (List.mem_cons_self _ _)
      have hne : e.normalizedAddress ≠ b := ne_of_dotted_dotfree _ _ he.2 hb
      simp [List.countP_cons, isChannelMappingFor, hne]

theorem groupEmit_countP_indiv (plc : Nat) (k : JStr) (bits : List BitEntry) (b : JStr)
    (hk : jsIncludes k '.' = false)
    (hents : ∀ e ∈ bits, (splitDot e.normalizedAddress).getD 0 [] = k ∧
      jsIncludes e.normalizedAddress '.' = true) :
    (groupEmit plc k bits).1.countP (isIndivBoolMappingFor b) =
      if k = b ∧ bits.length = 1 then 1 else 0 := by
  unfold groupEmit
  by_cases hlen : 1 < bits.length
  · rw [if_pos hlen]
    have hno : ¬ (k = b ∧ bits.length = 1) := fun h => by omega
    rw [if_neg hno]
    simp [List.countP_cons, isIndivBoolMappingFor, hk]
  · rw [if_neg hlen]
    cases bits with
    | nil =>
      rw [if_neg (fun h => by simp at h)]
      rfl
    | cons e rest =>
      have hr : rest = [] := by
        cases rest with
        | nil => rfl
        | cons x xs =>
          exfalso
          simp only [List.length_cons] at hlen
          omega
      subst hr
      have he := hents e (List.mem_cons_self _ _)
      simp only [List.countP_cons, List.countP_nil, isIndivBoolMappingFor]
      simp only [he.1, he.2]
      by_cases hkb : k = b
      · subst hkb
        simp
      · have hno : ¬ (k = b ∧ ([e] : List BitEntry).length = 1) := fun h => hkb h.1
        rw [if_neg hno]
        simp [hkb]

theorem groupEmit_countP_grouped (plc : Nat) (k : JStr) (bits : List BitEntry)
    (hk : jsIncludes k '.' = false)
    (hents : ∀ e ∈ bits, (splitDot e.normalizedAddress).getD 0 [] = k ∧
      jsIncludes e.normalizedAddress '.' = true) :
    (groupEmit plc k bits).1.countP isGroupedChannelMapping = (groupEmit plc k bits).2.2 := by
  unfold groupEmit
  by_cases hlen : 1 < bits.length
  · rw [if_pos hlen]
    have hgen : generateOpcuaName k (js "BOOL") none true plc =
        (js "P" ++ natToStr plc ++ js "_" ++ memoryAreaPrefixOf k ++ js "_" ++
          (if startsWithDigit k then k else k.drop 1)) ++ js "_BC" := by
      simp [generateOpcuaName, List.append_assoc]
    simp only [List.countP_cons, List.countP_nil, isGroupedChannelMapping]
    simp only [hgen, jsEndsWith_append_self]
    simp [hk]
  · rw [if_neg hlen]
    cases bits with
    | nil => rfl
    | cons e rest =>
      have he := hents e (List.mem_cons_self _ _)
      simp [List.countP_cons, isGroupedChannelMapping, he.2]

theorem GroupsWF_tail (k : JStr) (bits : List BitEntry) (rest : Groups)
    (hwf : GroupsWF ((k, bits) :: rest)) : GroupsWF rest := by
  obtain ⟨hnd, hmem⟩ := hwf
  simp only [List.map_cons, List.nodup_cons] at hnd
  exact ⟨hnd.2, fun kv h => hmem kv (List.mem_cons_of_mem _ h)⟩

theorem GroupsWF_head (k : JStr) (bits : List BitEntry) (rest : Groups)
    (hwf : GroupsWF ((k, bits) :: rest)) :
    jsIncludes k '.' = false ∧
      ∀ e ∈ bits, (splitDot e.normalizedAddress).getD 0 [] = k ∧
        jsIncludes e.normalizedAddress '.' = true := by
  have h := hwf.2 (k, bits) (List.mem_cons_self _ _)
  exact h

theorem processGroups_cons (plc : Nat) (k : JStr) (bits : List BitEntry) (rest : Groups) :
    processGroups plc ((k, bits) :: rest) =
      ((groupEmit plc k bits).1 ++ (processGroups plc rest).1,
       (groupEmit plc k bits).2.1 ++ (processGroups plc rest).2.1,
       (groupEmit plc k bits).2.2 + (processGroups plc rest).2.2) := rfl

theorem processGroups_countP_zero_of_not_mem (plc : Nat) (b : JStr)
    (hb : jsIncludes b '.' = false) :
    ∀ g : Groups, GroupsWF g → b ∉ g.map Prod.fst →
      (processGroups plc g).1.countP (isChannelMappingFor b) = 0 ∧
      (processGroups plc g).1.countP (isIndivBoolMappingFor b) = 0 := by
  intro g
  induction g with
  | nil => intro _ _; exact ⟨rfl, rfl⟩
  | cons kv rest ih =>
    obtain ⟨k, bits⟩ := kv
    intro hwf hmem
    have hh := GroupsWF_head k bits rest hwf
    have hkb : ¬ (k = b) := by
      intro h
      exact hmem (by simp [h])
    have hrest : b ∉ rest.map Prod.fst := fun h => hmem (List.mem_cons_of_mem _ h)
    have ihr := ih (GroupsWF_tail k bits rest hwf) hrest
    rw [processGroups_cons]
    constructor
    · rw [List.countP_append, groupEmit_countP_channel plc k bits b hh.2 hb, ihr.1]
      rw [if_neg (fun h => hkb h.1)]
    · rw [List.countP_append, groupEmit_countP_indiv plc k bits b hh.1 hh.2, ihr.2]
      rw [if_neg (fun h => hkb h.1)]

theorem processGroups_countP (plc : Nat) (b : JStr) (hb : jsIncludes b '.' = false) :
    ∀ g : Groups, GroupsWF g →
      ((processGroups plc g).1.countP (isChannelMappingFor b) =
        if 2 ≤ (lookupGroup g b).length then 1 else 0) ∧
      ((processGroups plc g).1.countP (isIndivBoolMappingFor b) =
        if (lookupGroup g b).length = 1 then 1 else 0) := by
  intro g
  induction g with
  | nil => intro _; constructor <;> rfl
  | cons kv rest ih =>
    obtain ⟨k, bits⟩ := kv
    intro hwf
    have hh := GroupsWF_head k bits rest hwf
    have hwfr := GroupsWF_tail k bits rest hwf
    rw [processGroups_cons]
    by_cases hkb : k = b
    · subst hkb
      have hnot : k ∉ rest.map Prod.fst := by
        have := hwf.1
        simp only [List.map_cons, List.nodup_cons] at this
        exact this.1
      have hz := processGroups_countP_zero_of_not_mem plc k hb rest hwfr hnot
      have hlk : lookupGroup ((k, bits) :: rest) k = bits := by
        simp [lookupGroup]
      rw [hlk]
      constructor
      · rw [List.countP_append, groupEmit_countP_channel plc k bits k hh.2 hb, hz.1]
        by_cases h2 : 2 ≤ bits.length
        · rw [if_pos ⟨rfl, h2⟩, if_pos h2]
        · rw [if_neg (fun h => h2 h.2), if_neg h2]
      · rw [List.countP_append, groupEmit_countP_indiv plc k bits k hh.1 hh.2, hz.2]
        by_cases h1 : bits.length = 1
        · rw [if_pos ⟨rfl, h1⟩, if_pos h1]
        · rw [if_neg (fun h => h1 h.2), if_neg h1]
    · have hlk : lookupGroup ((k, bits) :: rest) b = lookupGroup rest b := by
        simp [lookupGroup, hkb]
      rw [hlk]
      have ihr := ih hwfr
      constructor
      · rw [List.countP_append, groupEmit_countP_channel plc k bits b hh.2 hb, ihr.1]
        rw [if_neg (fun h => hkb h.1), Nat.zero_add]
      · rw [List.countP_append, groupEmit_countP_indiv plc k bits b hh.1 hh.2, ihr.2]
        rw [if_neg (fun h => hkb h.1), Nat.zero_add]

theorem processGroups_countP_grouped (plc : Nat) :
    ∀ g : Groups, GroupsWF g →
      (processGroups plc g).1.countP isGroupedChannelMapping = (processGroups plc g).2.2 := by
  intro g
  induction g with
  | nil => intro _; rfl
  | cons kv rest ih =>
    obtain ⟨k, bits⟩ := kv
    intro hwf
    have hh := GroupsWF_head k bits rest hwf
    rw [processGroups_cons]
    rw [List.countP_append, groupEmit_countP_grouped plc k bits hh.1 hh.2,
      ih (GroupsWF_tail k bits rest hwf)]

theorem otherOfRow_not_BOOL (plc : Nat) (row : List JStr) :
    ∀ m ∈ otherOfRow plc row, ¬ m.data_type = js "BOOL" := by
  intro m hm
  unfold otherOfRow at hm
  by_cases h1 : row.length < 4
  · rw [if_pos h1] at hm
    simp at hm
  · rw [if_neg h1] at hm
    by_cases h2 : isSupportedMemoryArea (row.getD 2 []) = true
    · rw [if_pos h2] at hm
      by_cases h3 : row.getD 1 [] = js "BOOL"
      · rw [if_pos h3] at hm
        simp at hm
      · rw [if_neg h3] at hm
        by_cases h4 : row.getD 1 [] = js "CHANNEL"
        · rw [if_pos h4] at hm
          rw [List.mem_singleton] at hm
          subst hm
          show ¬ js "CHANNEL" = js "BOOL"
          decide
        · rw [if_neg h4] at hm
          rw [List.mem_singleton] at hm
          subst hm
          exact h3
    · rw [if_neg h2] at hm
      simp at hm

theorem countP_zero_of_no_BOOL (p : AddressMapping → Bool) (l : List AddressMapping)
    (hp : ∀ m, ¬ m.data_type = js "BOOL" → p m = false)
    (hl : ∀ m ∈ l, ¬ m.data_type = js "BOOL") : l.countP p = 0 :=
  List.countP_eq_zero.mpr fun m hm => by rw [hp m (hl m hm)]; simp

theorem isChannelMappingFor_false_of_type (b : JStr) (m : AddressMapping)
    (h : ¬ m.data_type = js "BOOL") : isChannelMappingFor b m = false := by
  have : (m.data_type == js "BOOL") = false := beq_eq_false_iff_ne.mpr h
  simp [isChannelMappingFor, this]

theorem isIndivBoolMappingFor_false_of_type (b : JStr) (m : AddressMapping)
    (h : ¬ m.data_type = js "BOOL") : isIndivBoolMappingFor b m = false := by
  have : (m.data_type == js "BOOL") = false := beq_eq_false_iff_ne.mpr h
  simp [isIndivBoolMappingFor, this]

theorem isGroupedChannelMapping_false_of_type (m : AddressMapping)
    (h : ¬ m.data_type = js "BOOL") : isGroupedChannelMapping m = false := by
  have : (m.data_type == js "BOOL") = false := beq_eq_false_iff_ne.mpr h
  simp [isGroupedChannelMapping, this]

theorem boolRecordCount_eq (csv : List (List JStr)) (b : JStr) :
    boolRecordCount csv b =
      ((csv.filterMap entryOfRow).filter (fun ke => ke.1 = b)).length := by
  unfold boolRecordCount
  induction csv with
  | nil => rfl
  | cons row rest ih =>
    cases hrow : entryOfRow row with
    | none =>
      have hb : boolBaseOfRow row = none := by simp [boolBaseOfRow, hrow]
      rw [List.filterMap_cons_none hb, List.filterMap_cons_none hrow]
      exact ih
    | some ke =>
      have hb : boolBaseOfRow row = some ke.1 := by simp [boolBaseOfRow, hrow]
      rw [List.filterMap_cons_some hb, List.filterMap_cons_some hrow]
      by_cases hkb : ke.1 = b
      · simp [List.count_cons, List.filter_cons, hkb, ih]
      · simp [List.count_cons, List.filter_cons, hkb, ih]

theorem dotfree_of_boolRecordCount_pos (csv : List (List JStr)) (b : JStr)
    (h : 1 ≤ boolRecordCount csv b) : jsIncludes b '.' = false := by
  have hmem : b ∈ csv.filterMap boolBaseOfRow := by
    have : 0 < (csv.filterMap boolBaseOfRow).count b := h
    exact List.count_pos_iff.mp this
  rcases List.mem_filterMap.mp hmem with ⟨row, _, hrow⟩
  rcases Option.map_eq_some'.mp hrow with ⟨ke, hke, hfst⟩
  obtain ⟨k, e⟩ := ke
  have hwf := entryOfRow_wf row k e hke
  have hkb : k = b := hfst
  rw [← hkb]
  exact hwf.1

theorem parse_groups_wf (csv : List (List JStr)) (plc : Nat) :
    GroupsWF (csv.foldl (processRow plc) ⟨[], [], []⟩).groups := by
  have hg : (csv.foldl (processRow plc) (⟨[], [], []⟩ : LoopState)).groups =
      csv.foldl groupsStep [] := by
    simpa using foldl_processRow_groups plc csv ⟨[], [], []⟩
  rw [hg]
  exact GroupsWF_foldl csv [] GroupsWF_nil

theorem parse_other_not_BOOL (csv : List (List JStr)) (plc : Nat) :
    ∀ m ∈ (csv.foldl (processRow plc) (⟨[], [], []⟩ : LoopState)).otherMappings,
      ¬ m.data_type = js "BOOL" := by
  intro m hm
  rw [foldl_processRow_other] at hm
  simp only [List.nil_append] at hm
  rcases List.mem_flatMap.mp hm with ⟨row, _, hrow⟩
  exact otherOfRow_not_BOOL plc row m hrow

theorem parse_lookup_len (csv : List (List JStr)) (plc : Nat) (b : JStr) :
    (lookupGroup (csv.foldl (processRow plc) (⟨[], [], []⟩ : LoopState)).groups b).length =
      boolRecordCount csv b := by
  have hg : (csv.foldl (processRow plc) (⟨[], [], []⟩ : LoopState)).groups =
      csv.foldl groupsStep [] := by
    simpa using foldl_processRow_groups plc csv ⟨[], [], []⟩
  rw [hg, lookup_foldl_groupsStep, boolRecordCount_eq]
  simp [lookupGroup]

/-- C1. Bases with two or more contributing boolean records get exactly
one channel mapping and no individual boolean mapping; bases with exactly
one contributing boolean record get exactly one individual mapping and no
channel mapping. -/
theorem parseCSVData_boolean_grouping (csv : List (List JStr)) (plc : Nat) (b : JStr) :
    (2 ≤ boolRecordCount csv b →
      (parseCSVData csv plc).addressMappings.countP (isChannelMappingFor b) = 1 ∧
      (parseCSVData csv plc).addressMappings.countP (isIndivBoolMappingFor b) = 0) ∧
    (boolRecordCount csv b = 1 →
      (parseCSVData csv plc).addressMappings.countP (isIndivBoolMappingFor b) = 1 ∧
      (parseCSVData csv plc).addressMappings.countP (isChannelMappingFor b) = 0) := by
  have hmap : (parseCSVData csv plc).addressMappings =
      (processGroups plc ((csv.foldl (processRow plc) ⟨[], [], []⟩).groups)).1 ++
      (csv.foldl (processRow plc) ⟨[], [], []⟩).otherMappings := rfl
  have hwf := parse_groups_wf csv plc
  have hother := parse_other_not_BOOL csv plc
  have hlen := parse_lookup_len csv plc b
  have hzc := countP_zero_of_no_BOOL (isChannelMappingFor b) _
    (fun m hm => isChannelMappingFor_false_of_type b m hm) hother
  have hzi := countP_zero_of_no_BOOL (isIndivBoolMappingFor b) _
    (fun m hm => isIndivBoolMappingFor_false_of_type b m hm) hother
  constructor
  · intro h2
    have hb : jsIncludes b '.' = false :=
      dotfree_of_boolRecordCount_pos csv b (by omega)
    have hcounts := processGroups_countP plc b hb _ hwf
    simp only [hlen] at hcounts
    constructor
    · rw [hmap, List.countP_append, hcounts.1, hzc, if_pos h2]
    · rw [hmap, List.countP_append, hcounts.2, hzi, if_neg (by omega)]
  · intro h1
    have hb : jsIncludes b '.' = false :=
      dotfree_of_boolRecordCount_pos csv b (by omega)
    have hcounts := processGroups_countP plc b hb _ hwf
    simp only [hlen] at hcounts
    constructor
    · rw [hmap, List.countP_append, hcounts.2, hzi, if_pos h1]
    · rw [hmap, List.countP_append, hcounts.1, hzc, if_neg (by omega)]

/-- Closed instance of the C1 theorem: a two-record base and a
one-record base. -/
theorem parseCSVData_boolean_grouping_witness :
    ((parseCSVData [[js "", js "BOOL", js "E999.1", js "d1"],
        [js "", js "BOOL", js "E999.3", js "d2"]] 1).addressMappings.countP
      (isChannelMappingFor (js "E999")) = 1 ∧
     (parseCSVData [[js "", js "BOOL", js "E999.1", js "d1"],
        [js "", js "BOOL", js "E999.3", js "d2"]] 1).addressMappings.countP
      (isIndivBoolMappingFor (js "E999")) = 0) ∧
    ((parseCSVData [[js "", js "BOOL", js "1100", js "d"]] 1).addressMappings.countP
      (isIndivBoolMappingFor (js "1100")) = 1 ∧
     (parseCSVData [[js "", js "BOOL", js "1100", js "d"]] 1).addressMappings.countP
      (isChannelMappingFor (js "1100")) = 0) :=
  ⟨(parseCSVData_boolean_grouping [[js "", js "BOOL", js "E999.1", js "d1"],
      [js "", js "BOOL", js "E999.3", js "d2"]] 1 (js "E999")).1 (by decide),
   (parseCSVData_boolean_grouping [[js "", js "BOOL", js "1100", js "d"]] 1 (js "1100")).2
     (by decide)⟩

/-- C10. The returned statistics agree with the returned lists:
validRecords is the mapping-list length, skippedRecords the skip-list
length, and booleanChannels the number of grouped channel mappings
(declared type BOOL, dot-free source address, channel identifier ending)
in the mapping list. -/
theorem parseCSVData_stats_consistent (csv : List (List JStr)) (plc : Nat) :
    (parseCSVData csv plc).stats.validRecords =
      (parseCSVData csv plc).addressMappings.length ∧
    (parseCSVData csv plc).stats.skippedRecords =
      (parseCSVData csv plc).skippedAddresses.length ∧
    (parseCSVData csv plc).stats.booleanChannels =
      (parseCSVData csv plc).addressMappings.countP isGroupedChannelMapping := by
  refine ⟨rfl, rfl, ?_⟩
  have hmap : (parseCSVData csv plc).addressMappings =
      (processGroups plc ((csv.foldl (processRow plc) ⟨[], [], []⟩).groups)).1 ++
      (csv.foldl (processRow plc) ⟨[], [], []⟩).otherMappings := rfl
  have hbc : (parseCSVData csv plc).stats.booleanChannels =
      (processGroups plc ((csv.foldl (processRow plc) ⟨[], [], []⟩).groups)).2.2 := rfl
  rw [hbc, hmap, List.countP_append]
  rw [processGroups_countP_grouped plc _ (parse_groups_wf csv plc)]
  rw [countP_zero_of_no_BOOL isGroupedChannelMapping _
    (fun m hm => isGroupedChannelMapping_false_of_type m hm) (parse_other_not_BOOL csv plc)]
  simp

theorem foldl_groupsStep_filter (keep : List JStr → Bool)
    (hdrop : ∀ row, keep row = false → entryOfRow row = none) :
    ∀ (rows : List (List JStr)) (g : Groups),
      (rows.filter keep).foldl groupsStep g = rows.foldl groupsStep g := by
  intro rows
  induction rows with
  | nil => intro g; rfl
  | cons row rest ih =>
    intro g
    cases hk : keep row with
    | true =>
      rw [List.filter_cons_of_pos hk, List.foldl_cons, List.foldl_cons, ih]
    | false =>
      rw [List.filter_cons_of_neg (by simp [hk]), List.foldl_cons, ih]
      have : groupsStep g row = g := by simp [groupsStep, hdrop row hk]
      rw [this]

theorem flatMap_otherOfRow_filter (plc : Nat) (keep : List JStr → Bool)
    (hdrop : ∀ row, keep row = false → otherOfRow plc row = []) :
    ∀ rows : List (List JStr),
      (rows.filter keep).flatMap (otherOfRow plc) = rows.flatMap (otherOfRow plc) := by
  intro rows
  induction rows with
  | nil => rfl
  | cons row rest ih =>
    cases hk : keep row with
    | true =>
      rw [List.filter_cons_of_pos hk, List.flatMap_cons, List.flatMap_cons, ih]
    | false =>
      rw [List.filter_cons_of_neg (by simp [hk]), List.flatMap_cons, ih, hdrop row hk]
      rfl

theorem filterMap_skipOfRow_filter (keep : List JStr → Bool)
    (hdrop : ∀ row, keep row = false → skipOfRow row = none) :
    ∀ rows : List (List JStr),
      (rows.filter keep).filterMap skipOfRow = rows.filterMap skipOfRow := by
  intro rows
  induction rows with
  | nil => rfl
  | cons row rest ih =>
    cases hk : keep row with
    | true =>
      rw [List.filter_cons_of_pos hk]
      cases hs : skipOfRow row with
      | none => rw [List.filterMap_cons_none hs, List.filterMap_cons_none hs, ih]
      | some sk => rw [List.filterMap_cons_some hs, List.filterMap_cons_some hs, ih]
    | false =>
      rw [List.filter_cons_of_neg (by simp [hk]), List.filterMap_cons_none (hdrop row hk), ih]

theorem parse_mappings_decomposed (csv : List (List JStr)) (plc : Nat) :
    (parseCSVData csv plc).addressMappings =
      (processGroups plc (csv.foldl groupsStep [])).1 ++ csv.flatMap (otherOfRow plc) := by
  have hmap : (parseCSVData csv plc).addressMappings =
      (processGroups plc ((csv.foldl (processRow plc) ⟨[], [], []⟩).groups)).1 ++
      (csv.foldl (processRow plc) ⟨[], [], []⟩).otherMappings := rfl
  have hg : (csv.foldl (processRow plc) (⟨[], [], []⟩ : LoopState)).groups =
      csv.foldl groupsStep [] := by
    simpa using foldl_processRow_groups plc csv ⟨[], [], []⟩
  have ho : (csv.foldl (processRow plc) (⟨[], [], []⟩ : LoopState)).otherMappings =
      csv.flatMap (otherOfRow plc) := by
    simpa using foldl_processRow_other plc csv ⟨[], [], []⟩
  rw [hmap, hg, ho]

theorem skipOfRow_reason (row : List JStr) (sk : SkippedAddr)
    (h : skipOfRow row = some sk) : sk.reason = js "Unsupported memory area" := by
  unfold skipOfRow at h
  by_cases h4 : row.length < 4
  · rw [if_pos h4] at h
    cases h
  · rw [if_neg h4] at h
    by_cases hs : isSupportedMemoryArea (row.getD 2 []) = true
    · rw [if_pos hs] at h
      cases h
    · rw [if_neg hs] at h
      injection h with h'
      rw [← h']

/-- C6 (amended). Every row with at least four columns whose raw address
fails the supported-area check contributes exactly one entry to the
skipped list, in row order, with reason exactly the capitalized string
Unsupported memory area; such rows contribute nothing to the mapping
list, and processing continues over the remaining rows. -/
theorem parseCSVData_unsupported_rows (csv : List (List JStr)) (plc : Nat) :
    (parseCSVData csv plc).skippedAddresses = csv.filterMap skipOfRow ∧
    (∀ sk ∈ (parseCSVData csv plc).skippedAddresses,
      sk.reason = js "Unsupported memory area") ∧
    (parseCSVData csv plc).addressMappings =
      (parseCSVData (csv.filter (fun row =>
        !(decide (4 ≤ row.length) && !isSupportedMemoryArea (row.getD 2 [])))) plc).addressMappings := by
  have hsk : (parseCSVData csv plc).skippedAddresses = csv.filterMap skipOfRow := by
    have := foldl_processRow_skipped plc csv ⟨[], [], []⟩
    simpa using this
  refine ⟨hsk, ?_, ?_⟩
  · intro sk hskmem
    rw [hsk] at hskmem
    rcases List.mem_filterMap.mp hskmem with ⟨row, _, hrow⟩
    exact skipOfRow_reason row sk hrow
  · have hdropE : ∀ row, (!(decide (4 ≤ row.length) &&
        !isSupportedMemoryArea (row.getD 2 []))) = false → entryOfRow row = none := by
      intro row h
      simp only [Bool.not_eq_false', Bool.and_eq_true, decide_eq_true_eq,
        Bool.not_eq_true'] at h
      unfold entryOfRow
      rw [if_neg (by omega), if_neg (by intro hc; rw [hc] at h; simp at h)]
    have hdropO : ∀ row, (!(decide (4 ≤ row.length) &&
        !isSupportedMemoryArea (row.getD 2 []))) = false → otherOfRow plc row = [] := by
      intro row h
      simp only [Bool.not_eq_false', Bool.and_eq_true, decide_eq_true_eq,
        Bool.not_eq_true'] at h
      unfold otherOfRow
      rw [if_neg (by omega), if_neg (by intro hc; rw [hc] at h; simp at h)]
    rw [parse_mappings_decomposed, parse_mappings_decomposed]
    rw [foldl_groupsStep_filter _ hdropE, flatMap_otherOfRow_filter plc _ hdropO]

/-- C7 (amended). Rows with fewer than four columns produce no mapping
and no skipped entry and are absent from validRecords and skippedRecords,
but they are counted by stats.totalRecords, which is the length of the
whole input grid. -/
theorem parseCSVData_short_rows (csv : List (List JStr)) (plc : Nat) :
    (parseCSVData csv plc).stats.totalRecords = csv.length ∧
    (parseCSVData csv plc).addressMappings =
      (parseCSVData (csv.filter (fun row => decide (4 ≤ row.length))) plc).addressMappings ∧
    (parseCSVData csv plc).skippedAddresses =
      (parseCSVData (csv.filter (fun row => decide (4 ≤ row.length))) plc).skippedAddresses := by
  have hdropshort : ∀ row : List JStr, (decide (4 ≤ row.length)) = false → row.length < 4 := by
    intro row h
    simp only [decide_eq_false_iff_not] at h
    omega
  refine ⟨rfl, ?_, ?_⟩
  · have hdropE : ∀ row, (decide (4 ≤ row.length)) = false → entryOfRow row = none := by
      intro row h
      unfold entryOfRow
      rw [if_pos (hdropshort row h)]
    have hdropO : ∀ row, (decide (4 ≤ row.length)) = false → otherOfRow plc row = [] := by
      intro row h
      unfold otherOfRow
      rw [if_pos (hdropshort row h)]
    rw [parse_mappings_decomposed, parse_mappings_decomposed]
    rw [foldl_groupsStep_filter _ hdropE, flatMap_otherOfRow_filter plc _ hdropO]
  · have hdropS : ∀ row, (decide (4 ≤ row.length)) = false → skipOfRow row = none := by
      intro row h
      unfold skipOfRow
      rw [if_pos (hdropshort row h)]
    have h1 : (parseCSVData csv plc).skippedAddresses = csv.filterMap skipOfRow := by
      simpa using foldl_processRow_skipped plc csv ⟨[], [], []⟩
    have h2 : (parseCSVData (csv.filter (fun row => decide (4 ≤ row.length))) plc).skippedAddresses =
        (csv.filter (fun row => decide (4 ≤ row.length))).filterMap skipOfRow := by
      simpa using foldl_processRow_skipped plc
        (csv.filter (fun row => decide (4 ≤ row.length))) ⟨[], [], []⟩
    rw [h1, h2, filterMap_skipOfRow_filter _ hdropS]
